import Mathlib

/-!
Verification of the Workflow Replay & Comparison Engine of the
llm-workflow-visualizer repository.

The definitions below are a shallow embedding of
`src/frontend/src/utils/replayUtils.ts` (the branch constructor
`createReplaySession`, the comparison engine `compareSessions` /
`compareSteps`) over the data model of `src/frontend/src/types/index.ts`.
JavaScript numbers used as step indices, groups and exit codes are modelled
as `Int`; ISO timestamp strings are modelled as opaque `String`s; a rejected
promise of the pluggable executor is modelled as an `Option` failure.
-/

namespace WorkflowViz

/-- The `action` field of a `FileEditStep` (`types/index.ts`):
`'create' | 'update' | 'delete'`. -/
inductive FileAction
  | create
  | update
  | delete
deriving DecidableEq, Repr, Inhabited

/-- Per-variant payload (`data`) of a step.  The four variants mirror the
discriminated union `Step = PromptStep | FileEditStep | CommandStep |
AssistantResponseStep`.  Note: the declared `PromptStep` interface carries
only `prompt`, but `compareSteps` in `replayUtils.ts` also reads
`data.response` on prompt steps (and the mock executor writes it), so the
prompt payload is modelled with an optional `response` field; a missing
property (JS `undefined`) is `none`. -/
inductive StepData
  | prompt (prompt : String) (response : Option String)
  | fileEdit (path : String) (action : FileAction) (content : String)
  | command (cmd : String) (stdout : String) (stderr : String) (exitCode : Int)
  | assistantResponse (response : String)
deriving DecidableEq, Repr, Inhabited

/-- A step record: the common `BaseStep` fields plus the variant payload. -/
structure Step where
  stepIndex : Int
  timestamp : String
  group : Int
  title : Option String
  tags : Option (List String)
  replayOf : Option Int
  data : StepData
deriving DecidableEq, Repr, Inhabited

/-- The discriminant string (`step.type`) of a step. -/
def Step.type (s : Step) : String :=
  match s.data with
  | .prompt .. => "prompt"
  | .fileEdit .. => "file_edit"
  | .command .. => "command"
  | .assistantResponse .. => "assistant_response"

/-- A session (`types/index.ts`): id, title, creation instant, ordered step
list, and the optional replay metadata. -/
structure Session where
  sessionId : String
  title : String
  createdAt : String
  steps : List Step
  replayOf : Option String
  replayFromStepIndex : Option Int
  isReplaySession : Option Bool
deriving DecidableEq, Repr, Inhabited

/-- String form of a `FileAction`, used in difference messages. -/
def FileAction.str : FileAction → String
  | .create => "create"
  | .update => "update"
  | .delete => "delete"

/-- Embedding of `compareSteps` (replayUtils.ts lines 505-561): returns the ordered list
of human-readable difference descriptions between two aligned steps.  A type
mismatch yields the single "Type changed" message and short-circuits; for
equal types the switch compares payload fields per variant.  The switch has
cases for `prompt`, `command` and `file_edit` only; an `assistant_response`
pair falls through with no field comparison, which the final wildcard arm
reflects (the mixed-variant combinations in that arm are unreachable because
the types were already equal). -/
def compareSteps (originalStep replayStep : Step) : List String :=
  if originalStep.type ≠ replayStep.type then
    ["Type changed from " ++ originalStep.type ++ " to " ++ replayStep.type]
  else
    match originalStep.data, replayStep.data with
    | .prompt p1 r1, .prompt p2 r2 =>
        (if p1 ≠ p2 then ["Prompt input changed"] else []) ++
        (if r1 ≠ r2 then ["Response output changed"] else [])
    | .command c1 o1 e1 x1, .command c2 o2 e2 x2 =>
        (if c1 ≠ c2 then ["Command changed"] else []) ++
        (if o1 ≠ o2 then ["Standard output changed"] else []) ++
        (if e1 ≠ e2 then ["Standard error changed"] else []) ++
        (if x1 ≠ x2 then
          ["Exit code changed from " ++ toString x1 ++ " to " ++ toString x2]
         else [])
    | .fileEdit p1 a1 c1, .fileEdit p2 a2 c2 =>
        (if p1 ≠ p2 then ["File path changed"] else []) ++
        (if a1 ≠ a2 then
          ["Action changed from " ++ a1.str ++ " to " ++ a2.str]
         else []) ++
        (if c1 ≠ c2 then ["File content changed"] else [])
    | _, _ => []

/-- Status of one aligned step comparison. -/
inductive CompStatus
  | identical
  | modified
  | added
  | removed
deriving DecidableEq, Repr, Inhabited

/-- Embedding of `StepComparison` (`types/index.ts`). -/
structure StepComparison where
  stepIndex : Int
  originalStep : Option Step
  replayStep : Option Step
  status : CompStatus
  differences : List String
deriving DecidableEq, Repr, Inhabited

/-- Embedding of `ComparisonSummary` (`types/index.ts`). -/
structure ComparisonSummary where
  totalStepsOriginal : Nat
  totalStepsReplay : Nat
  identicalSteps : Nat
  modifiedSteps : Nat
  addedSteps : Nat
  removedSteps : Nat
deriving DecidableEq, Repr, Inhabited

/-- Embedding of `SessionComparison` (`types/index.ts`). -/
structure SessionComparison where
  originalSession : Session
  replaySession : Session
  stepComparisons : List StepComparison
  summary : ComparisonSummary
deriving DecidableEq, Repr, Inhabited

/-- The union of step indices of two sessions, in ascending numeric order
(replayUtils.ts lines 452-457: `new Set([...])` followed by
`.sort((a, b) => a - b)`).  The JS `Set` keeps first-occurrence order, but
since the subsequent numeric sort of the (now distinct) indices produces the
unique ascending enumeration, any duplicate-removal with the same membership
is observationally identical; we use `List.dedup`. -/
def allStepIndices (a b : Session) : List Int :=
  List.insertionSort (· ≤ ·)
    ((a.steps.map (fun s => s.stepIndex) ++ b.steps.map (fun s => s.stepIndex)).dedup)

/-- One iteration of the comparison loop (replayUtils.ts lines 457-485):
look up the step with the given index in each session and classify. -/
def mkStepComparison (a b : Session) (stepIndex : Int) : StepComparison :=
  let originalStep := a.steps.find? (fun s => decide (s.stepIndex = stepIndex))
  let replayStep := b.steps.find? (fun s => decide (s.stepIndex = stepIndex))
  match originalStep, replayStep with
  | some o, some r =>
      let stepDifferences := compareSteps o r
      { stepIndex := stepIndex
        originalStep := some o
        replayStep := some r
        status := if stepDifferences.length > 0 then .modified else .identical
        differences := stepDifferences }
  | some o, none =>
      { stepIndex := stepIndex
        originalStep := some o
        replayStep := none
        status := .removed
        differences := ["Step was removed in replay"] }
  | none, some r =>
      { stepIndex := stepIndex
        originalStep := none
        replayStep := some r
        status := .added
        differences := ["Step was added in replay"] }
  | none, none =>
      -- the code's defensive `else` branch ("This shouldn't happen")
      { stepIndex := stepIndex
        originalStep := none
        replayStep := none
        status := .identical
        differences := [] }

/-- Embedding of `compareSessions` (replayUtils.ts lines 448-502). -/
def compareSessions (originalSession replaySession : Session) : SessionComparison :=
  let stepComparisons :=
    (allStepIndices originalSession replaySession).map
      (mkStepComparison originalSession replaySession)
  { originalSession := originalSession
    replaySession := replaySession
    stepComparisons := stepComparisons
    summary :=
      { totalStepsOriginal := originalSession.steps.length
        totalStepsReplay := replaySession.steps.length
        identicalSteps :=
          (stepComparisons.filter (fun sc => decide (sc.status = .identical))).length
        modifiedSteps :=
          (stepComparisons.filter (fun sc => decide (sc.status = .modified))).length
        addedSteps :=
          (stepComparisons.filter (fun sc => decide (sc.status = .added))).length
        removedSteps :=
          (stepComparisons.filter (fun sc => decide (sc.status = .removed))).length } }

/-! ### Branch constructor (`createReplaySession`, replayUtils.ts lines 10-80)

The executor parameter `mockExecuteStep : (step: Step) => Promise<Step>` is
modelled as `exec : Step → Option Step` (`none` = the promise rejected).
The two calls to `new Date().toISOString()` are modelled by a `now : String`
parameter supplied by the environment.  The thrown
`Error("Step ... not found")` (the spec's `StepNotFoundError`) is modelled
as an `Option.none` result of the whole call. -/

/-- Embedding of `generateReplaySessionId` (replayUtils.ts lines 4-7): the new id is the
original id, `-replay-`, and the current ISO timestamp with `:` and `.`
removed. -/
def generateReplaySessionId (originalSessionId : String) (now : String) : String :=
  originalSessionId ++ "-replay-" ++
    String.mk (now.data.filter (fun c => decide (c ≠ ':' ∧ c ≠ '.')))

/-- The step-ordering relation used by the JS comparator
`(a, b) => a.stepIndex - b.stepIndex`. -/
def stepLE (a b : Step) : Prop := a.stepIndex ≤ b.stepIndex

instance : DecidableRel stepLE := fun a b =>
  inferInstanceAs (Decidable (a.stepIndex ≤ b.stepIndex))

instance : IsTotal Step stepLE := ⟨fun a b => le_total a.stepIndex b.stepIndex⟩

instance : IsTrans Step stepLE := ⟨fun _ _ _ h1 h2 => le_trans h1 h2⟩

/-- The shallow copy `({ ...step })` applied to each unchanged step
(replayUtils.ts line 29): every top-level field is copied.  In this
value-semantics model it is the identity (see `stepSpread_eq_self`); the
aliasing of the `data` payload that the spread does *not* clone is analysed
separately with the object-store model below. -/
def stepSpread (s : Step) : Step :=
  { stepIndex := s.stepIndex
    timestamp := s.timestamp
    group := s.group
    title := s.title
    tags := s.tags
    replayOf := s.replayOf
    data := s.data }

/-- The unchanged prefix (replayUtils.ts lines 27-29): every step whose
`group <= targetGroup`, shallow-copied. -/
def unchangedSteps (original : Session) (targetGroup : Int) : List Step :=
  (original.steps.filter (fun s => decide (s.group ≤ targetGroup))).map stepSpread

/-- The steps to replay (replayUtils.ts lines 34-36): steps of the target
group strictly after the cut index, sorted ascending by `stepIndex`. -/
def stepsToReplayInSameGroup (original : Session) (targetGroup fromStepIndex : Int) :
    List Step :=
  List.insertionSort stepLE
    (original.steps.filter
      (fun s => decide (s.group = targetGroup ∧ fromStepIndex < s.stepIndex)))

/-- Tagging of a successfully replayed step (replayUtils.ts lines 48-52):
`{ ...replayedStep, replayOf: originalStep.stepIndex, timestamp: now }`. -/
def tagReplayed (replayedStep : Step) (originalIndex : Int) (now : String) : Step :=
  { replayedStep with replayOf := some originalIndex, timestamp := now }

/-- The sequential replay loop (replayUtils.ts lines 40-59): execute each
step in order; on success append the tagged result, on the first failure
`break` (keeping what was already replayed and dropping the rest). -/
def replayLoop (exec : Step → Option Step) (now : String) : List Step → List Step
  | [] => []
  | originalStep :: rest =>
      match exec originalStep with
      | some replayedStep =>
          tagReplayed replayedStep originalStep.stepIndex now ::
            replayLoop exec now rest
      | none => []

/-- Embedding of `createReplaySession` (replayUtils.ts lines 10-80). -/
def createReplaySession (originalSession : Session) (fromStepIndex : Int)
    (exec : Step → Option Step) (now : String) : Option Session :=
  match originalSession.steps.find? (fun s => decide (s.stepIndex = fromStepIndex)) with
  | none => none
  | some fromStep =>
      let targetGroup := fromStep.group
      let unchanged := unchangedSteps originalSession targetGroup
      let toReplay := stepsToReplayInSameGroup originalSession targetGroup fromStepIndex
      let replayedSteps := replayLoop exec now toReplay
      some
        { sessionId := generateReplaySessionId originalSession.sessionId now
          title := "Replay of " ++ originalSession.title
          createdAt := now
          steps := unchanged ++ replayedSteps
          replayOf := some originalSession.sessionId
          replayFromStepIndex := some fromStepIndex
          isReplaySession := some true }

/-! ### Object-store model of the spread copy

JavaScript steps are heap objects: a step object holds a *reference* to its
`data` payload object.  To reason about aliasing (claim about deep copies)
we model a step as a record whose `dataRef` is an address into an explicit
payload heap, and the spread `({ ...step })` of replayUtils.ts line 29 as a
copy of the top-level fields — including the `dataRef` value, but not the
payload it points to. -/

/-- A step object in the reference model: top-level fields are values, the
payload is a heap reference. -/
structure StepObj where
  stepIndex : Int
  timestamp : String
  group : Int
  title : Option String
  tags : Option (List String)
  replayOf : Option Int
  dataRef : Nat
deriving DecidableEq, Repr, Inhabited

/-- The payload heap: address `i` holds the `data` object at index `i`. -/
abbrev PayloadHeap := List StepData

/-- Read the payload object at an address (JS property access through the
reference). -/
def PayloadHeap.read (h : PayloadHeap) (ref : Nat) : Option StepData :=
  h[ref]?

/-- Mutate the payload object at an address in place (JS mutation through
either of the references pointing at it). -/
def PayloadHeap.write (h : PayloadHeap) (ref : Nat) (v : StepData) : PayloadHeap :=
  List.set h ref v

/-- The spread `({ ...step })` in the reference model: each own enumerable
property is copied by value — for the `data` property that value is the
reference, so the copy points at the same payload object. -/
def stepObjSpread (s : StepObj) : StepObj :=
  { stepIndex := s.stepIndex
    timestamp := s.timestamp
    group := s.group
    title := s.title
    tags := s.tags
    replayOf := s.replayOf
    dataRef := s.dataRef }

/-- The unchanged-prefix construction of replayUtils.ts lines 27-29 in the
reference model: filter by group, then spread-copy each step object. -/
def unchangedStepObjs (steps : List StepObj) (targetGroup : Int) : List StepObj :=
  (steps.filter (fun s => decide (s.group ≤ targetGroup))).map stepObjSpread

/-! ### Line-level diff

`DiffViewer.tsx` delegates the actual diff computation to `Diff.diffLines`
of the external npm `diff` package, whose source is not part of this
repository; only its caller is.  Following spec §4.4, the algorithm is
therefore modelled from the spec: an LCS-based line diff producing an
ordered script of added/removed/unchanged line segments. -/

/-- Modelled from the spec: the `kind` of one diff segment
(`added | removed | unchanged`), §4.4. -/
inductive SegKind
  | added
  | removed
  | unchanged
deriving DecidableEq, Repr, Inhabited

/-- Modelled from the spec: one segment of the diff script, a kind together
with the line it carries (§4.4; we use one segment per line, which a
run-of-lines representation concatenates). -/
structure DiffSeg where
  kind : SegKind
  text : List Char
deriving DecidableEq, Repr, Inhabited

/-- Modelled from the spec: "splits both inputs into line sequences"
(§4.4) — the newline-separated lines of a character list (a non-empty text
of `k` newline characters has `k + 1` lines). -/
def splitLinesAux : List Char → List (List Char)
  | [] => [[]]
  | c :: cs =>
      match splitLinesAux cs with
      | [] => [[]]
      | l :: ls => if c = '\n' then [] :: l :: ls else (c :: l) :: ls

/-- Modelled from the spec: the line sequence of a string; the empty text
has zero lines. -/
def splitLines (s : String) : List (List Char) :=
  if s.data.isEmpty then [] else splitLinesAux s.data

/-- Modelled from the spec: reassemble a line sequence into a character
list, the inverse of the split. -/
def joinLinesAux : List (List Char) → List Char
  | [] => []
  | [l] => l
  | l :: l2 :: ls => l ++ '\n' :: joinLinesAux (l2 :: ls)

/-- Modelled from the spec: reassemble a line sequence into a string. -/
def joinLines (ls : List (List Char)) : String :=
  String.mk (joinLinesAux ls)

/-- Modelled from the spec: length of a longest common subsequence of two
line sequences, guiding the minimal edit script (§4.4).  The recursion is
bounded by explicit fuel (structural, so the kernel can evaluate it); any
fuel of at least the two lengths' sum yields the LCS length. -/
def lcsLenFuel : Nat → List (List Char) → List (List Char) → Nat
  | 0, _, _ => 0
  | _ + 1, [], _ => 0
  | _ + 1, _ :: _, [] => 0
  | fuel + 1, x :: xs, y :: ys =>
      if x = y then lcsLenFuel fuel xs ys + 1
      else max (lcsLenFuel fuel xs (y :: ys)) (lcsLenFuel fuel (x :: xs) ys)

/-- Modelled from the spec: the longest-common-subsequence length of two
line sequences (§4.4). -/
def lcsLen (a b : List (List Char)) : Nat :=
  lcsLenFuel (a.length + b.length) a b

/-- Modelled from the spec: the LCS-based edit script over two line
sequences (§4.4) — matching lines are `unchanged`, lines present only in
the old text are `removed`, lines present only in the new text `added`.
Fuel-bounded structural recursion; the fuel-exhausted arm is unreachable
whenever the fuel is at least the two lengths' sum, which `diffSegs`
supplies. -/
def diffSegsFuel : Nat → List (List Char) → List (List Char) → List DiffSeg
  | 0, _, _ => []
  | _ + 1, [], [] => []
  | fuel + 1, [], y :: ys => ⟨SegKind.added, y⟩ :: diffSegsFuel fuel [] ys
  | fuel + 1, x :: xs, [] => ⟨SegKind.removed, x⟩ :: diffSegsFuel fuel xs []
  | fuel + 1, x :: xs, y :: ys =>
      if x = y then ⟨SegKind.unchanged, x⟩ :: diffSegsFuel fuel xs ys
      else if lcsLen (x :: xs) ys ≤ lcsLen xs (y :: ys) then
        ⟨SegKind.removed, x⟩ :: diffSegsFuel fuel xs (y :: ys)
      else
        ⟨SegKind.added, y⟩ :: diffSegsFuel fuel (x :: xs) ys

/-- Modelled from the spec: the minimal edit script between two line
sequences. -/
def diffSegs (a b : List (List Char)) : List DiffSeg :=
  diffSegsFuel (a.length + b.length) a b

/-- Modelled from the spec: `diffLines(oldText, newText)` — the ordered
edit script between the line sequences of the two texts (§4.4,
`DiffViewer.tsx` line 47). -/
def diffLines (oldText newText : String) : List DiffSeg :=
  diffSegs (splitLines oldText) (splitLines newText)

/-- The lines a script attributes to the old text: `unchanged` and
`removed` segments in order. -/
def oldLines : List DiffSeg → List (List Char)
  | [] => []
  | seg :: rest =>
      match seg.kind with
      | .added => oldLines rest
      | _ => seg.text :: oldLines rest

/-- The lines a script attributes to the new text: `unchanged` and `added`
segments in order. -/
def newLines : List DiffSeg → List (List Char)
  | [] => []
  | seg :: rest =>
      match seg.kind with
      | .removed => newLines rest
      | _ => seg.text :: newLines rest

/-! ### Concrete example inputs -/

/-- Build a step with the given index, group and payload (other base fields
fixed). -/
def mkStep (i g : Int) (d : StepData) : Step :=
  { stepIndex := i
    timestamp := "t0"
    group := g
    title := none
    tags := none
    replayOf := none
    data := d }

/-- Build a session with the given id and steps. -/
def mkSession (id : String) (l : List Step) : Session :=
  { sessionId := id
    title := id
    createdAt := "c0"
    steps := l
    replayOf := none
    replayFromStepIndex := none
    isReplaySession := none }

/-- A concrete step object for the object-store examples: its payload lives
at heap address 0. -/
def demoStepObj : StepObj :=
  { stepIndex := 0
    timestamp := "t0"
    group := 0
    title := none
    tags := none
    replayOf := none
    dataRef := 0 }

/-! ## Helper lemmas -/

theorem stepSpread_eq (s : Step) : stepSpread s = s := rfl

theorem unchangedSteps_eq (original : Session) (g : Int) :
    unchangedSteps original g =
      original.steps.filter (fun s => decide (s.group ≤ g)) := by
  unfold unchangedSteps
  rw [show stepSpread = id from funext stepSpread_eq]
  exact List.map_id _

theorem createReplaySession_of_find? (originalSession : Session)
    (fromStepIndex : Int) (exec : Step → Option Step) (now : String)
    (fromStep : Step)
    (h : originalSession.steps.find?
      (fun s => decide (s.stepIndex = fromStepIndex)) = some fromStep) :
    createReplaySession originalSession fromStepIndex exec now = some
      { sessionId := generateReplaySessionId originalSession.sessionId now
        title := "Replay of " ++ originalSession.title
        createdAt := now
        steps := unchangedSteps originalSession fromStep.group ++
          replayLoop exec now
            (stepsToReplayInSameGroup originalSession fromStep.group fromStepIndex)
        replayOf := some originalSession.sessionId
        replayFromStepIndex := some fromStepIndex
        isReplaySession := some true } := by
  unfold createReplaySession
  rw [h]

theorem replayLoop_elem {exec : Step → Option Step} {now : String}
    {l : List Step} {x : Step} (hx : x ∈ replayLoop exec now l) :
    ∃ s ∈ l, ∃ t, exec s = some t ∧ x = tagReplayed t s.stepIndex now := by
  induction l with
  | nil => simp [replayLoop] at hx
  | cons a rest ih =>
      unfold replayLoop at hx
      cases he : exec a with
      | none => rw [he] at hx; simp at hx
      | some t =>
          rw [he] at hx
          rcases List.mem_cons.mp hx with rfl | hmem
          · exact ⟨a, List.mem_cons_self a rest, t, he, rfl⟩
          · obtain ⟨s, hs, t', h1, h2⟩ := ih hmem
            exact ⟨s, List.mem_cons_of_mem _ hs, t', h1, h2⟩

theorem replayLoop_eq_map {exec : Step → Option Step} {now : String}
    {l : List Step} (h : ∀ s ∈ l, (exec s).isSome) :
    replayLoop exec now l =
      l.map (fun s => tagReplayed ((exec s).getD s) s.stepIndex now) := by
  induction l with
  | nil => rfl
  | cons a rest ih =>
      have ha := h a (List.mem_cons_self a rest)
      cases he : exec a with
      | none => rw [he] at ha; simp at ha
      | some t =>
          simp only [replayLoop, he, List.map_cons, Option.getD_some]
          exact congrArg _ (ih fun s hs => h s (List.mem_cons_of_mem _ hs))

theorem replayLoop_stops_at_failure {exec : Step → Option Step} {now : String}
    {pre post : List Step} {failStep : Step}
    (hpre : ∀ s ∈ pre, (exec s).isSome) (hfail : exec failStep = none) :
    replayLoop exec now (pre ++ failStep :: post) = replayLoop exec now pre := by
  induction pre with
  | nil => simp [replayLoop, hfail]
  | cons a rest ih =>
      have ha := hpre a (List.mem_cons_self a rest)
      cases he : exec a with
      | none => rw [he] at ha; simp at ha
      | some t =>
          simp only [List.cons_append, replayLoop, he]
          exact congrArg _ (ih fun s hs => hpre s (List.mem_cons_of_mem _ hs))

/-! ## Claim C7 -/

/-- C7: `createReplaySession` fails (with the `Step ... not found` error,
modelled as `none`) if and only if no step of the original session has
`stepIndex` equal to the cut index; the result does not depend on the
executor at all in that case (the executor binder is universally quantified
and absent from the right-hand side), so the failure happens before any
executor call or partial construction, and no fallback index is used. -/
theorem createReplaySession_not_found_iff (originalSession : Session)
    (fromStepIndex : Int) (exec : Step → Option Step) (now : String) :
    createReplaySession originalSession fromStepIndex exec now = none ↔
      ∀ s ∈ originalSession.steps, s.stepIndex ≠ fromStepIndex := by
  unfold createReplaySession
  cases h : originalSession.steps.find?
      (fun s => decide (s.stepIndex = fromStepIndex)) with
  | none =>
      simp only [true_iff]
      rw [List.find?_eq_none] at h
      intro s hs
      simpa using h s hs
  | some fs =>
      simp only [reduceCtorEq, false_iff, not_forall]
      have hmem := List.mem_of_find?_eq_some h
      have hp : fs.stepIndex = fromStepIndex := by simpa using List.find?_some h
      exact ⟨fs, hmem, fun hne => hne hp⟩

/-! ## Claim C8 -/

/-- C8 counterexample: a session with steps 0 and 1 in the same group, cut
at step 0, and an executor whose every call rejects.  The rejection occurs
on replayed-tail step 1 (the tail is nonempty), yet `createReplaySession`
returns a session — it does not propagate the rejection as an error to its
caller; the failure is caught and only truncates the replayed tail. -/
theorem createReplaySession_swallow_counterexample :
    (stepsToReplayInSameGroup
        (mkSession "orig" [mkStep 0 0 (.prompt "p" none),
                           mkStep 1 0 (.command "c" "o" "" 0)]) 0 0).length = 1 ∧
    (createReplaySession
        (mkSession "orig" [mkStep 0 0 (.prompt "p" none),
                           mkStep 1 0 (.command "c" "o" "" 0)])
        0 (fun _ => none) "NOW") =
      some
        { sessionId := "orig-replay-NOW"
          title := "Replay of orig"
          createdAt := "NOW"
          steps := [mkStep 0 0 (.prompt "p" none),
                    mkStep 1 0 (.command "c" "o" "" 0)]
          replayOf := some "orig"
          replayFromStepIndex := some 0
          isReplaySession := some true } := by
  constructor
  · rfl
  · rfl

/-- C8 amended: the branch constructor never propagates an executor
rejection to its caller.  Whenever the cut step exists it returns a session
— for every executor, including ones that reject — because the rejection is
caught inside the loop, which merely stops replaying; no
`StepExecutionError` surfaces. -/
theorem createReplaySession_total_on_valid_cut (originalSession : Session)
    (fromStepIndex : Int) (exec : Step → Option Step) (now : String)
    (h : ∃ s ∈ originalSession.steps, s.stepIndex = fromStepIndex) :
    (createReplaySession originalSession fromStepIndex exec now).isSome := by
  cases hf : originalSession.steps.find?
      (fun s => decide (s.stepIndex = fromStepIndex)) with
  | none =>
      rw [List.find?_eq_none] at hf
      obtain ⟨s, hs, hi⟩ := h
      exact absurd (by simpa using hf s hs) (by simpa using hi)
  | some fs =>
      rw [createReplaySession_of_find? originalSession fromStepIndex exec now fs hf]
      rfl

/-- Witness for `createReplaySession_total_on_valid_cut` at a concrete
session, cut index and always-rejecting executor. -/
theorem createReplaySession_total_on_valid_cut_witness :
    (createReplaySession (mkSession "w" [mkStep 0 0 (.prompt "p" none)])
      0 (fun _ => none) "NOW").isSome :=
  createReplaySession_total_on_valid_cut
    (mkSession "w" [mkStep 0 0 (.prompt "p" none)]) 0 (fun _ => none) "NOW"
    ⟨mkStep 0 0 (.prompt "p" none), by decide, by decide⟩

/-! ## Claim C9 -/

/-- C9 counterexample: in the object-store model of the spread copy
(replayUtils.ts line 29), take a session with one step whose payload lives
at heap address 0 and branch with cut at that step.  The copied step of the
unchanged prefix carries the *same* payload reference as the original step,
and writing a new payload through the copy's reference changes the value
read through the original step's reference — the copy is not a deep copy,
and mutation through one session is visible through the other. -/
theorem spread_alias_counterexample :
    unchangedStepObjs [demoStepObj] 0 = [stepObjSpread demoStepObj] ∧
    (stepObjSpread demoStepObj).dataRef = demoStepObj.dataRef ∧
    PayloadHeap.read [StepData.prompt "p" none] demoStepObj.dataRef =
      some (StepData.prompt "p" none) ∧
    PayloadHeap.read
        (PayloadHeap.write [StepData.prompt "p" none]
          (stepObjSpread demoStepObj).dataRef (StepData.prompt "q" none))
        demoStepObj.dataRef =
      some (StepData.prompt "q" none) := by
  refine ⟨rfl, rfl, rfl, rfl⟩

/-- C9 amended: the steps copied into the branch result's unchanged prefix
are shallow copies, not deep copies: every top-level field is copied (the
copy is `stepObjSpread` of an original step with `group` at most the target
group), and in particular the payload reference is copied unchanged, so the
copy aliases the original's payload object — a write through the copy's
reference is read back through the original's reference. -/
theorem unchanged_copies_shallow (steps : List StepObj) (targetGroup : Int)
    (c : StepObj) (hc : c ∈ unchangedStepObjs steps targetGroup) :
    ∃ s ∈ steps, s.group ≤ targetGroup ∧ c = stepObjSpread s ∧
      c.dataRef = s.dataRef ∧
      ∀ (h : PayloadHeap) (v : StepData), s.dataRef < h.length →
        (h.write c.dataRef v).read s.dataRef = some v := by
  unfold unchangedStepObjs at hc
  obtain ⟨s, hs, hcs⟩ := List.mem_map.mp hc
  obtain ⟨hmem, hg⟩ := List.mem_filter.mp hs
  refine ⟨s, hmem, by simpa using hg, hcs.symm, by rw [← hcs]; rfl, ?_⟩
  intro h v hlen
  have hr : c.dataRef = s.dataRef := by rw [← hcs]; rfl
  rw [hr]
  exact List.getElem?_set_self hlen

/-- Witness for `unchanged_copies_shallow` at a concrete step list. -/
theorem unchanged_copies_shallow_witness :
    ∃ s ∈ [demoStepObj],
      s.group ≤ 0 ∧ demoStepObj = stepObjSpread s ∧
      demoStepObj.dataRef = s.dataRef ∧
      ∀ (h : PayloadHeap) (v : StepData), s.dataRef < h.length →
        (h.write demoStepObj.dataRef v).read s.dataRef = some v :=
  unchanged_copies_shallow [demoStepObj] 0 demoStepObj (by decide)

/-! ## Claim C2 -/

/-- C2: for a valid cut index (the lookup finds `fromStep`) and a
group-preserving executor, the branch result exists, its non-replayed part
is exactly the sublist of original steps with `group ≤ fromStep.group` —
the very steps of the original session, field for field, in order — and no
step anywhere in the result (non-replayed or replayed) has a group above
the cut step's group. -/
theorem createReplaySession_group_bound (originalSession : Session)
    (fromStepIndex : Int) (exec : Step → Option Step) (now : String)
    (fromStep : Step)
    (hfind : originalSession.steps.find?
      (fun s => decide (s.stepIndex = fromStepIndex)) = some fromStep)
    (hexec : ∀ s t, exec s = some t → t.group = s.group) :
    ∃ result,
      createReplaySession originalSession fromStepIndex exec now = some result ∧
      result.steps =
        originalSession.steps.filter (fun s => decide (s.group ≤ fromStep.group)) ++
          replayLoop exec now
            (stepsToReplayInSameGroup originalSession fromStep.group fromStepIndex) ∧
      ∀ s ∈ result.steps, s.group ≤ fromStep.group := by
  refine ⟨_, createReplaySession_of_find? _ _ _ _ _ hfind, ?_, ?_⟩
  · rw [unchangedSteps_eq]
  · intro s hs
    rcases List.mem_append.mp hs with hl | hr
    · rw [unchangedSteps_eq] at hl
      have := (List.mem_filter.mp hl).2
      simpa using this
    · obtain ⟨s0, hs0, t, hexe, rfl⟩ := replayLoop_elem hr
      have hs0' : s0.group = fromStep.group := by
        unfold stepsToReplayInSameGroup at hs0
        have := (List.mem_filter.mp ((List.mem_insertionSort _).mp hs0)).2
        simp only [decide_eq_true_eq] at this
        exact this.1
      have ht : t.group = s0.group := hexec s0 t hexe
      show t.group ≤ fromStep.group
      rw [ht, hs0']

/-- Witness for `createReplaySession_group_bound`: a two-step session cut at
its first step with the executor that returns each step unchanged. -/
theorem createReplaySession_group_bound_witness :
    ∃ result,
      createReplaySession
          (mkSession "w2" [mkStep 0 0 (.prompt "p" none),
                           mkStep 1 1 (.assistantResponse "r")])
          0 (fun s => some s) "NOW" = some result ∧
      result.steps =
        (mkSession "w2" [mkStep 0 0 (.prompt "p" none),
                         mkStep 1 1 (.assistantResponse "r")]).steps.filter
          (fun s => decide (s.group ≤ (mkStep 0 0 (.prompt "p" none)).group)) ++
          replayLoop (fun s => some s) "NOW"
            (stepsToReplayInSameGroup
              (mkSession "w2" [mkStep 0 0 (.prompt "p" none),
                               mkStep 1 1 (.assistantResponse "r")])
              (mkStep 0 0 (.prompt "p" none)).group 0) ∧
      ∀ s ∈ result.steps, s.group ≤ (mkStep 0 0 (.prompt "p" none)).group :=
  createReplaySession_group_bound
    (mkSession "w2" [mkStep 0 0 (.prompt "p" none),
                     mkStep 1 1 (.assistantResponse "r")])
    0 (fun s => some s) "NOW" (mkStep 0 0 (.prompt "p" none))
    (by decide) (fun s t h => by cases h; rfl)

/-! ## Claim C3 -/

/-- C3: if the executor fails on some step of the replayed tail (the tail
decomposes as `pre ++ failStep :: post` with every step of `pre`
succeeding and `failStep` rejecting), branch construction stops there: the
replays of `pre` are all kept (one per step of `pre`), the failing step and
every subsequent tail step are omitted, and the partially built session —
copied prefix plus the replays of `pre`, with its replay metadata — is
still returned rather than discarded. -/
theorem createReplaySession_partial_failure (originalSession : Session)
    (fromStepIndex : Int) (exec : Step → Option Step) (now : String)
    (fromStep failStep : Step) (pre post : List Step)
    (hfind : originalSession.steps.find?
      (fun s => decide (s.stepIndex = fromStepIndex)) = some fromStep)
    (htail : stepsToReplayInSameGroup originalSession fromStep.group fromStepIndex =
      pre ++ failStep :: post)
    (hpre : ∀ s ∈ pre, (exec s).isSome) (hfail : exec failStep = none) :
    ∃ result,
      createReplaySession originalSession fromStepIndex exec now = some result ∧
      result.steps = unchangedSteps originalSession fromStep.group ++
        replayLoop exec now pre ∧
      (replayLoop exec now pre).length = pre.length ∧
      result.replayOf = some originalSession.sessionId ∧
      result.replayFromStepIndex = some fromStepIndex ∧
      result.isReplaySession = some true := by
  refine ⟨_, createReplaySession_of_find? _ _ _ _ _ hfind, ?_, ?_, rfl, rfl, rfl⟩
  · show unchangedSteps originalSession fromStep.group ++ _ = _
    rw [htail, replayLoop_stops_at_failure hpre hfail]
  · rw [replayLoop_eq_map hpre, List.length_map]

/-- Witness for `createReplaySession_partial_failure`: a two-step,
one-group session cut at step 0 with an always-rejecting executor; the
tail is `[] ++ step1 :: []`. -/
theorem createReplaySession_partial_failure_witness :
    ∃ result,
      createReplaySession
          (mkSession "w3" [mkStep 0 0 (.prompt "p" none),
                           mkStep 1 0 (.command "c" "o" "" 0)])
          0 (fun _ => none) "NOW" = some result ∧
      result.steps =
        unchangedSteps
          (mkSession "w3" [mkStep 0 0 (.prompt "p" none),
                           mkStep 1 0 (.command "c" "o" "" 0)])
          (mkStep 0 0 (.prompt "p" none)).group ++
          replayLoop (fun _ => none) "NOW" [] ∧
      (replayLoop (fun _ => none) "NOW" ([] : List Step)).length =
        ([] : List Step).length ∧
      result.replayOf = some "w3" ∧
      result.replayFromStepIndex = some 0 ∧
      result.isReplaySession = some true :=
  createReplaySession_partial_failure
    (mkSession "w3" [mkStep 0 0 (.prompt "p" none),
                     mkStep 1 0 (.command "c" "o" "" 0)])
    0 (fun _ => none) "NOW" (mkStep 0 0 (.prompt "p" none))
    (mkStep 1 0 (.command "c" "o" "" 0)) [] []
    (by decide) (by decide) (by intro s hs; cases hs) rfl

/-! ## Claim C5 -/

/-- C5: for a valid cut index and an executor that succeeds on every tail
step, the branch result's steps are the copied prefix followed by the
replayed tail: the tail processed is exactly the set of original steps with
`group = fromStep.group` and `stepIndex > fromStepIndex`, taken in
ascending `stepIndex` order (the replay loop itself is a sequential
left-to-right recursion, one executor call at a time), and each replayed
step is the executor's output tagged with `replayOf` equal to the original
step's index and the fresh timestamp. -/
theorem createReplaySession_replayed_tail (originalSession : Session)
    (fromStepIndex : Int) (exec : Step → Option Step) (now : String)
    (fromStep : Step)
    (hfind : originalSession.steps.find?
      (fun s => decide (s.stepIndex = fromStepIndex)) = some fromStep)
    (hexec : ∀ s ∈ stepsToReplayInSameGroup originalSession fromStep.group
      fromStepIndex, (exec s).isSome) :
    ∃ result,
      createReplaySession originalSession fromStepIndex exec now = some result ∧
      result.steps = unchangedSteps originalSession fromStep.group ++
        (stepsToReplayInSameGroup originalSession fromStep.group
          fromStepIndex).map
          (fun s => tagReplayed ((exec s).getD s) s.stepIndex now) ∧
      (∀ s, s ∈ stepsToReplayInSameGroup originalSession fromStep.group
          fromStepIndex ↔
        s ∈ originalSession.steps ∧ s.group = fromStep.group ∧
          fromStepIndex < s.stepIndex) ∧
      List.Sorted (· ≤ ·)
        ((stepsToReplayInSameGroup originalSession fromStep.group
          fromStepIndex).map (fun s => s.stepIndex)) ∧
      ∀ s : Step,
        (tagReplayed ((exec s).getD s) s.stepIndex now).replayOf =
          some s.stepIndex ∧
        (tagReplayed ((exec s).getD s) s.stepIndex now).timestamp = now := by
  refine ⟨_, createReplaySession_of_find? _ _ _ _ _ hfind, ?_, ?_, ?_, ?_⟩
  · show unchangedSteps originalSession fromStep.group ++ _ = _
    rw [replayLoop_eq_map hexec]
  · intro s
    unfold stepsToReplayInSameGroup
    rw [List.mem_insertionSort, List.mem_filter]
    simp [and_assoc]
  · have hsorted : List.Sorted stepLE
        (stepsToReplayInSameGroup originalSession fromStep.group fromStepIndex) :=
      List.sorted_insertionSort stepLE _
    exact List.Pairwise.map _ (fun a b hab => hab) hsorted
  · exact fun s => ⟨rfl, rfl⟩

/-- Witness for `createReplaySession_replayed_tail`: a two-step, one-group
session cut at step 0 with the executor that returns each step unchanged. -/
theorem createReplaySession_replayed_tail_witness :
    ∃ result,
      createReplaySession
          (mkSession "w5" [mkStep 0 0 (.prompt "p" none),
                           mkStep 1 0 (.command "c" "o" "" 0)])
          0 (fun s => some s) "NOW" = some result ∧
      result.steps =
        unchangedSteps
          (mkSession "w5" [mkStep 0 0 (.prompt "p" none),
                           mkStep 1 0 (.command "c" "o" "" 0)])
          (mkStep 0 0 (.prompt "p" none)).group ++
          (stepsToReplayInSameGroup
            (mkSession "w5" [mkStep 0 0 (.prompt "p" none),
                             mkStep 1 0 (.command "c" "o" "" 0)])
            (mkStep 0 0 (.prompt "p" none)).group 0).map
            (fun s => tagReplayed ((some s).getD s) s.stepIndex "NOW") ∧
      (∀ s, s ∈ stepsToReplayInSameGroup
          (mkSession "w5" [mkStep 0 0 (.prompt "p" none),
                           mkStep 1 0 (.command "c" "o" "" 0)])
          (mkStep 0 0 (.prompt "p" none)).group 0 ↔
        s ∈ (mkSession "w5" [mkStep 0 0 (.prompt "p" none),
                             mkStep 1 0 (.command "c" "o" "" 0)]).steps ∧
          s.group = (mkStep 0 0 (.prompt "p" none)).group ∧
          0 < s.stepIndex) ∧
      List.Sorted (· ≤ ·)
        ((stepsToReplayInSameGroup
          (mkSession "w5" [mkStep 0 0 (.prompt "p" none),
                           mkStep 1 0 (.command "c" "o" "" 0)])
          (mkStep 0 0 (.prompt "p" none)).group 0).map
          (fun s => s.stepIndex)) ∧
      ∀ s : Step,
        (tagReplayed ((some s).getD s) s.stepIndex "NOW").replayOf =
          some s.stepIndex ∧
        (tagReplayed ((some s).getD s) s.stepIndex "NOW").timestamp = "NOW" :=
  createReplaySession_replayed_tail
    (mkSession "w5" [mkStep 0 0 (.prompt "p" none),
                     mkStep 1 0 (.command "c" "o" "" 0)])
    0 (fun s => some s) "NOW" (mkStep 0 0 (.prompt "p" none))
    (by decide) (fun s _ => rfl)

/-! ## Claim C1 -/

theorem compareSteps_type_mismatch (a b : Step) (h : a.type ≠ b.type) :
    compareSteps a b = ["Type changed from " ++ a.type ++ " to " ++ b.type] := by
  unfold compareSteps
  rw [if_pos h]

theorem compareSteps_nil_iff (a b : Step) :
    compareSteps a b = [] ↔
      a.type = b.type ∧
        (a.data = b.data ∨
          ∃ r1 r2, a.data = .assistantResponse r1 ∧
            b.data = .assistantResponse r2) := by
  obtain ⟨ia, tsa, ga, tia, taga, ra, da⟩ := a
  obtain ⟨ib, tsb, gb, tib, tagb, rb, db⟩ := b
  cases da <;> cases db <;> simp [compareSteps, Step.type]

theorem compareSteps_command_length (a b : Step)
    (c1 o1 e1 : String) (x1 : Int) (c2 o2 e2 : String) (x2 : Int)
    (ha : a.data = .command c1 o1 e1 x1) (hb : b.data = .command c2 o2 e2 x2) :
    (compareSteps a b).length =
      ((if c1 = c2 then 0 else 1) + (if o1 = o2 then 0 else 1) +
       (if e1 = e2 then 0 else 1) + (if x1 = x2 then 0 else 1)) := by
  obtain ⟨ia, tsa, ga, tia, taga, ra, da⟩ := a
  obtain ⟨ib, tsb, gb, tib, tagb, rb, db⟩ := b
  simp only at ha hb
  subst ha; subst hb
  simp only [compareSteps, Step.type, ne_eq, not_true_eq_false, if_false,
    ite_not, List.length_append]
  split_ifs <;> simp

/-- C1 counterexample: two aligned `assistant_response` steps with the same
type but different payloads (`response` differs) are classified `identical`
with an empty difference list by `compareSessions` — the claimed
"identical iff every payload field equal" fails, because the `switch` in
`compareSteps` has no `assistant_response` case and compares no fields for
that variant. -/
theorem compareSteps_assistant_counterexample :
    (mkStep 0 0 (.assistantResponse "x")).type =
      (mkStep 0 0 (.assistantResponse "y")).type ∧
    (mkStep 0 0 (.assistantResponse "x")).data ≠
      (mkStep 0 0 (.assistantResponse "y")).data ∧
    compareSteps (mkStep 0 0 (.assistantResponse "x"))
      (mkStep 0 0 (.assistantResponse "y")) = [] ∧
    (compareSessions (mkSession "o" [mkStep 0 0 (.assistantResponse "x")])
        (mkSession "r" [mkStep 0 0 (.assistantResponse "y")])).stepComparisons =
      [{ stepIndex := 0
         originalStep := some (mkStep 0 0 (.assistantResponse "x"))
         replayStep := some (mkStep 0 0 (.assistantResponse "y"))
         status := .identical
         differences := [] }] := by
  refine ⟨rfl, by decide, rfl, rfl⟩

/-- C1 amended: an aligned pair is classified `identical` (empty difference
list) if and only if the types match and either every payload field is
value-for-value equal or both steps are `assistant_response` steps (for
which the code compares no payload fields at all); when the types differ a
single "Type changed" description is emitted and no field comparison
happens; and for two Command steps the number of difference descriptions is
exactly the number of mismatched fields among command text, stdout, stderr
and exit code, each checked independently. -/
theorem compareSteps_classification (a b : Step) :
    (compareSteps a b = [] ↔
      a.type = b.type ∧
        (a.data = b.data ∨
          ∃ r1 r2, a.data = .assistantResponse r1 ∧
            b.data = .assistantResponse r2)) ∧
    (a.type ≠ b.type →
      compareSteps a b = ["Type changed from " ++ a.type ++ " to " ++ b.type]) ∧
    (∀ (c1 o1 e1 : String) (x1 : Int) (c2 o2 e2 : String) (x2 : Int),
      a.data = .command c1 o1 e1 x1 → b.data = .command c2 o2 e2 x2 →
      (compareSteps a b).length =
        ((if c1 = c2 then 0 else 1) + (if o1 = o2 then 0 else 1) +
         (if e1 = e2 then 0 else 1) + (if x1 = x2 then 0 else 1))) :=
  ⟨compareSteps_nil_iff a b, compareSteps_type_mismatch a b,
   fun c1 o1 e1 x1 c2 o2 e2 x2 ha hb =>
     compareSteps_command_length a b c1 o1 e1 x1 c2 o2 e2 x2 ha hb⟩

/-- Witness for `compareSteps_classification`: the spec's own concrete
scenario — a Command step with exit code 0 versus exit code 1, same command
text and stdout, different stderr — instantiating the command-counting part
(two differences) and the type-mismatch part at a prompt/command pair. -/
theorem compareSteps_classification_witness :
    (compareSteps (mkStep 0 0 (.command "c" "o" "" 0))
        (mkStep 0 0 (.command "c" "o" "e" 1))).length =
      ((if "c" = "c" then 0 else 1) + (if "o" = "o" then 0 else 1) +
       (if "" = "e" then 0 else 1) + (if (0 : Int) = 1 then 0 else 1)) ∧
    compareSteps (mkStep 0 0 (.prompt "p" none))
        (mkStep 1 0 (.command "c" "o" "" 0)) =
      ["Type changed from " ++ (mkStep 0 0 (.prompt "p" none)).type ++
        " to " ++ (mkStep 1 0 (.command "c" "o" "" 0)).type] :=
  ⟨(compareSteps_classification (mkStep 0 0 (.command "c" "o" "" 0))
      (mkStep 0 0 (.command "c" "o" "e" 1))).2.2 "c" "o" "" 0 "c" "o" "e" 1
      rfl rfl,
   (compareSteps_classification (mkStep 0 0 (.prompt "p" none))
      (mkStep 1 0 (.command "c" "o" "" 0))).2.1 (by decide)⟩

/-! ## Comparison-engine helper lemmas -/

theorem mkStepComparison_stepIndex (a b : Session) (i : Int) :
    (mkStepComparison a b i).stepIndex = i := by
  unfold mkStepComparison
  cases a.steps.find? (fun s => decide (s.stepIndex = i)) <;>
    cases b.steps.find? (fun s => decide (s.stepIndex = i)) <;> rfl

theorem mkStepComparison_status_removed (a b : Session) (i : Int)
    (ha : (a.steps.find? (fun s => decide (s.stepIndex = i))).isSome)
    (hb : b.steps.find? (fun s => decide (s.stepIndex = i)) = none) :
    (mkStepComparison a b i).status = .removed := by
  unfold mkStepComparison
  obtain ⟨o, ho⟩ := Option.isSome_iff_exists.mp ha
  rw [ho, hb]

theorem mkStepComparison_status_added (a b : Session) (i : Int)
    (ha : a.steps.find? (fun s => decide (s.stepIndex = i)) = none)
    (hb : (b.steps.find? (fun s => decide (s.stepIndex = i))).isSome) :
    (mkStepComparison a b i).status = .added := by
  unfold mkStepComparison
  obtain ⟨r, hr⟩ := Option.isSome_iff_exists.mp hb
  rw [ha, hr]

theorem mem_allStepIndices (a b : Session) (i : Int) :
    i ∈ allStepIndices a b ↔
      (∃ s ∈ a.steps, s.stepIndex = i) ∨ (∃ s ∈ b.steps, s.stepIndex = i) := by
  unfold allStepIndices
  rw [List.mem_insertionSort, List.mem_dedup, List.mem_append]
  simp

theorem sorted_allStepIndices (a b : Session) :
    List.Sorted (· < ·) (allStepIndices a b) := by
  have h1 : List.Sorted (· ≤ ·) (allStepIndices a b) :=
    List.sorted_insertionSort _ _
  have h2 : (allStepIndices a b).Nodup :=
    (List.perm_insertionSort _ _).nodup_iff.mpr (List.nodup_dedup _)
  exact h1.lt_of_le h2

theorem statusFilterSum (l : List StepComparison) :
    (l.filter (fun sc => decide (sc.status = .identical))).length +
    (l.filter (fun sc => decide (sc.status = .modified))).length +
    (l.filter (fun sc => decide (sc.status = .added))).length +
    (l.filter (fun sc => decide (sc.status = .removed))).length = l.length := by
  induction l with
  | nil => rfl
  | cons c rest ih =>
      cases hc : c.status <;> simp [List.filter_cons, hc] <;> omega

/-! ## Claim C4 -/

/-- C4: `compareSessions` produces exactly one `StepComparison` per index
of the union of both sessions' step indices (its comparison list is the map
of one constructor over the union list, whose indices it reproduces), the
union is iterated in strictly ascending numeric order and contains an index
iff either session has a step with it; an index present only in the first
session is classified `removed` and one present only in the second
`added`; `totalStepsOriginal`/`totalStepsReplay` are the respective input
step counts (not the union size), and each per-status count counts the
produced `StepComparison`s of that status. -/
theorem compareSessions_union_spec (a b : Session) :
    (compareSessions a b).stepComparisons =
      (allStepIndices a b).map (mkStepComparison a b) ∧
    (compareSessions a b).stepComparisons.map (fun c => c.stepIndex) =
      allStepIndices a b ∧
    List.Sorted (· < ·) (allStepIndices a b) ∧
    (∀ i : Int, i ∈ allStepIndices a b ↔
      (∃ s ∈ a.steps, s.stepIndex = i) ∨ (∃ s ∈ b.steps, s.stepIndex = i)) ∧
    (∀ c ∈ (compareSessions a b).stepComparisons,
      ((∃ s ∈ a.steps, s.stepIndex = c.stepIndex) →
        (∀ s ∈ b.steps, s.stepIndex ≠ c.stepIndex) → c.status = .removed) ∧
      ((∃ s ∈ b.steps, s.stepIndex = c.stepIndex) →
        (∀ s ∈ a.steps, s.stepIndex ≠ c.stepIndex) → c.status = .added)) ∧
    (compareSessions a b).summary.totalStepsOriginal = a.steps.length ∧
    (compareSessions a b).summary.totalStepsReplay = b.steps.length ∧
    (compareSessions a b).summary.identicalSteps =
      ((compareSessions a b).stepComparisons.filter
        (fun sc => decide (sc.status = .identical))).length ∧
    (compareSessions a b).summary.modifiedSteps =
      ((compareSessions a b).stepComparisons.filter
        (fun sc => decide (sc.status = .modified))).length ∧
    (compareSessions a b).summary.addedSteps =
      ((compareSessions a b).stepComparisons.filter
        (fun sc => decide (sc.status = .added))).length ∧
    (compareSessions a b).summary.removedSteps =
      ((compareSessions a b).stepComparisons.filter
        (fun sc => decide (sc.status = .removed))).length := by
  refine ⟨rfl, ?_, sorted_allStepIndices a b, mem_allStepIndices a b, ?_,
    rfl, rfl, rfl, rfl, rfl, rfl⟩
  · show ((allStepIndices a b).map (mkStepComparison a b)).map
      (fun c => c.stepIndex) = allStepIndices a b
    rw [List.map_map,
      show ((fun c : StepComparison => c.stepIndex) ∘ mkStepComparison a b) = id
        from funext fun i => mkStepComparison_stepIndex a b i]
    exact List.map_id _
  · intro c hc
    have hc' : c ∈ (allStepIndices a b).map (mkStepComparison a b) := hc
    obtain ⟨i, _, rfl⟩ := List.mem_map.mp hc'
    rw [mkStepComparison_stepIndex a b i]
    constructor
    · intro ⟨s, hs, hsi⟩ hnone
      exact mkStepComparison_status_removed a b i
        (List.find?_isSome.mpr ⟨s, hs, by simpa using hsi⟩)
        (List.find?_eq_none.mpr fun x hx => by simpa using hnone x hx)
    · intro ⟨s, hs, hsi⟩ hnone
      exact mkStepComparison_status_added a b i
        (List.find?_eq_none.mpr fun x hx => by simpa using hnone x hx)
        (List.find?_isSome.mpr ⟨s, hs, by simpa using hsi⟩)

/-- Witness for `compareSessions_union_spec`: the spec's own concrete
scenario restricted to the disjoint indices — original holds index 1,
replay holds index 2; index 1 is classified `removed`, index 2 `added`. -/
theorem compareSessions_union_spec_witness :
    (mkStepComparison (mkSession "ua" [mkStep 1 0 (.prompt "p" none)])
      (mkSession "ub" [mkStep 2 0 (.prompt "p" none)]) 1).status = .removed ∧
    (mkStepComparison (mkSession "ua" [mkStep 1 0 (.prompt "p" none)])
      (mkSession "ub" [mkStep 2 0 (.prompt "p" none)]) 2).status = .added :=
  ⟨((compareSessions_union_spec (mkSession "ua" [mkStep 1 0 (.prompt "p" none)])
      (mkSession "ub" [mkStep 2 0 (.prompt "p" none)])).2.2.2.2.1
      (mkStepComparison (mkSession "ua" [mkStep 1 0 (.prompt "p" none)])
        (mkSession "ub" [mkStep 2 0 (.prompt "p" none)]) 1)
      (by decide)).1 (by decide) (by decide),
   ((compareSessions_union_spec (mkSession "ua" [mkStep 1 0 (.prompt "p" none)])
      (mkSession "ub" [mkStep 2 0 (.prompt "p" none)])).2.2.2.2.1
      (mkStepComparison (mkSession "ua" [mkStep 1 0 (.prompt "p" none)])
        (mkSession "ub" [mkStep 2 0 (.prompt "p" none)]) 2)
      (by decide)).2 (by decide) (by decide)⟩

/-! ## Claim C10 -/

/-- C10: output invariants of `compareSessions` — in every produced
`StepComparison`, status `removed` implies the original-step reference is
present and the replay-step reference absent, `added` the converse,
`identical` and `modified` imply both present; the difference list is empty
exactly when the status is `identical`; and the four per-status summary
counts sum to the number of produced `StepComparison`s. -/
theorem compareSessions_output_invariants (a b : Session) :
    (∀ c ∈ (compareSessions a b).stepComparisons,
      (c.status = .removed → c.originalStep.isSome ∧ c.replayStep = none) ∧
      (c.status = .added → c.replayStep.isSome ∧ c.originalStep = none) ∧
      (c.status = .identical ∨ c.status = .modified →
        c.originalStep.isSome ∧ c.replayStep.isSome) ∧
      (c.differences = [] ↔ c.status = .identical)) ∧
    (compareSessions a b).summary.identicalSteps +
      (compareSessions a b).summary.modifiedSteps +
      (compareSessions a b).summary.addedSteps +
      (compareSessions a b).summary.removedSteps =
      (compareSessions a b).stepComparisons.length := by
  refine ⟨?_, statusFilterSum _⟩
  intro c hc
  have hc' : c ∈ (allStepIndices a b).map (mkStepComparison a b) := hc
  obtain ⟨i, hi, rfl⟩ := List.mem_map.mp hc'
  have hone := (mem_allStepIndices a b i).mp hi
  unfold mkStepComparison
  cases hfa : a.steps.find? (fun s => decide (s.stepIndex = i)) with
  | none =>
      cases hfb : b.steps.find? (fun s => decide (s.stepIndex = i)) with
      | none =>
          exfalso
          rw [List.find?_eq_none] at hfa hfb
          rcases hone with ⟨s, hs, hsi⟩ | ⟨s, hs, hsi⟩
          · exact hfa s hs (by simpa using hsi)
          · exact hfb s hs (by simpa using hsi)
      | some r => exact ⟨by simp, fun _ => ⟨rfl, rfl⟩, by simp, by simp⟩
  | some o =>
      cases hfb : b.steps.find? (fun s => decide (s.stepIndex = i)) with
      | none => exact ⟨fun _ => ⟨rfl, rfl⟩, by simp, by simp, by simp⟩
      | some r =>
          by_cases hlen : (compareSteps o r).length > 0
          · refine ⟨?_, ?_, ?_, ?_⟩ <;> simp [hlen]
            intro h
            exact absurd (List.length_eq_zero.mpr h) (by omega)
          · refine ⟨?_, ?_, ?_, ?_⟩ <;> simp [hlen]
            exact List.length_eq_zero.mp (by omega)

/-- Witness for `compareSessions_output_invariants`: a one-step original
against an empty replay; the single comparison is `removed`, with the
original reference present and the replay reference absent. -/
theorem compareSessions_output_invariants_witness :
    (mkStepComparison (mkSession "wa" [mkStep 0 0 (.prompt "p" none)])
      (mkSession "wb" []) 0).originalStep.isSome ∧
    (mkStepComparison (mkSession "wa" [mkStep 0 0 (.prompt "p" none)])
      (mkSession "wb" []) 0).replayStep = none :=
  ((compareSessions_output_invariants
      (mkSession "wa" [mkStep 0 0 (.prompt "p" none)]) (mkSession "wb" [])).1
    (mkStepComparison (mkSession "wa" [mkStep 0 0 (.prompt "p" none)])
      (mkSession "wb" []) 0)
    (by decide)).1 (by decide)

/-! ## Diff helper lemmas -/

theorem splitLinesAux_ne_nil (cs : List Char) : splitLinesAux cs ≠ [] := by
  induction cs with
  | nil => simp [splitLinesAux]
  | cons c cs ih =>
      unfold splitLinesAux
      cases h : splitLinesAux cs with
      | nil => exact absurd h ih
      | cons l ls => by_cases hc : c = '\n' <;> simp [hc]

theorem joinLinesAux_splitLinesAux (cs : List Char) :
    joinLinesAux (splitLinesAux cs) = cs := by
  induction cs with
  | nil => rfl
  | cons c cs ih =>
      unfold splitLinesAux
      cases h : splitLinesAux cs with
      | nil => exact absurd h (splitLinesAux_ne_nil cs)
      | cons l ls =>
          rw [h] at ih
          show joinLinesAux
            (if c = '\n' then [] :: l :: ls else (c :: l) :: ls) = c :: cs
          by_cases hc : c = '\n'
          · subst hc
            simp [joinLinesAux, ih]
          · rw [if_neg hc]
            cases ls with
            | nil =>
                simp [joinLinesAux] at ih ⊢
                exact ih
            | cons l2 ls2 =>
                simp [joinLinesAux] at ih ⊢
                rw [ih]

theorem oldLines_diffSegsFuel (fuel : Nat) :
    ∀ a b : List (List Char), a.length + b.length ≤ fuel →
      oldLines (diffSegsFuel fuel a b) = a := by
  induction fuel with
  | zero =>
      intro a b h
      cases a with
      | nil => rfl
      | cons x xs => simp at h
  | succ n ih =>
      intro a b h
      cases a with
      | nil =>
          cases b with
          | nil => rfl
          | cons y ys =>
              simp only [diffSegsFuel, oldLines]
              exact ih [] ys (by simp at h ⊢; omega)
      | cons x xs =>
          cases b with
          | nil =>
              simp only [diffSegsFuel, oldLines]
              rw [ih xs [] (by simp at h ⊢; omega)]
          | cons y ys =>
              by_cases hxy : x = y
              · simp only [diffSegsFuel, if_pos hxy, oldLines]
                rw [ih xs ys (by simp at h ⊢; omega)]
              · by_cases hle : lcsLen (x :: xs) ys ≤ lcsLen xs (y :: ys)
                · simp only [diffSegsFuel, if_neg hxy, if_pos hle, oldLines]
                  rw [ih xs (y :: ys) (by simp at h ⊢; omega)]
                · simp only [diffSegsFuel, if_neg hxy, if_neg hle, oldLines]
                  rw [ih (x :: xs) ys (by simp at h ⊢; omega)]

theorem newLines_diffSegsFuel (fuel : Nat) :
    ∀ a b : List (List Char), a.length + b.length ≤ fuel →
      newLines (diffSegsFuel fuel a b) = b := by
  induction fuel with
  | zero =>
      intro a b h
      cases b with
      | nil => cases a with
        | nil => rfl
        | cons x xs => simp at h
      | cons y ys => simp at h
  | succ n ih =>
      intro a b h
      cases a with
      | nil =>
          cases b with
          | nil => rfl
          | cons y ys =>
              simp only [diffSegsFuel, newLines]
              rw [ih [] ys (by simp at h ⊢; omega)]
      | cons x xs =>
          cases b with
          | nil =>
              simp only [diffSegsFuel, newLines]
              exact ih xs [] (by simp at h ⊢; omega)
          | cons y ys =>
              by_cases hxy : x = y
              · simp only [diffSegsFuel, if_pos hxy, newLines]
                rw [ih xs ys (by simp at h ⊢; omega), hxy]
              · by_cases hle : lcsLen (x :: xs) ys ≤ lcsLen xs (y :: ys)
                · simp only [diffSegsFuel, if_neg hxy, if_pos hle, newLines]
                  exact ih xs (y :: ys) (by simp at h ⊢; omega)
                · simp only [diffSegsFuel, if_neg hxy, if_neg hle, newLines]
                  rw [ih (x :: xs) ys (by simp at h ⊢; omega)]

theorem diffSegsFuel_self (fuel : Nat) :
    ∀ a : List (List Char), a.length + a.length ≤ fuel →
      diffSegsFuel fuel a a = a.map (fun l => ⟨SegKind.unchanged, l⟩) := by
  induction fuel with
  | zero =>
      intro a h
      cases a with
      | nil => rfl
      | cons x xs => simp at h
  | succ n ih =>
      intro a h
      cases a with
      | nil => rfl
      | cons x xs =>
          have hxs := ih xs (by simp at h ⊢; omega)
          simp [diffSegsFuel, hxs]

theorem diffSegsFuel_nil_left (fuel : Nat) :
    ∀ b : List (List Char), b.length ≤ fuel →
      diffSegsFuel fuel [] b = b.map (fun l => ⟨SegKind.added, l⟩) := by
  induction fuel with
  | zero =>
      intro b h
      cases b with
      | nil => rfl
      | cons y ys => simp at h
  | succ n ih =>
      intro b h
      cases b with
      | nil => rfl
      | cons y ys =>
          simp only [diffSegsFuel, List.map_cons]
          rw [ih ys (by simp at h ⊢; omega)]

theorem joinLines_splitLines (s : String) :
    joinLines (splitLines s) = s := by
  unfold splitLines
  by_cases h : s.data.isEmpty
  · rw [if_pos h]
    cases s with
    | mk data =>
        rw [List.isEmpty_iff] at h
        simp only at h
        subst h
        rfl
  · rw [if_neg h]
    show String.mk (joinLinesAux (splitLinesAux s.data)) = s
    rw [joinLinesAux_splitLinesAux]

/-! ## Claim C6 -/

/-- C6: `diffLines` is total (a Lean function), and for any two strings —
empty included — its script reconstructs both inputs: the `unchanged` plus
`removed` lines, in order, reassemble the old text and the `unchanged` plus
`added` lines the new text; moreover `diffLines X X` consists only of
`unchanged` segments (so its reconstruction is `X` itself) and
`diffLines "" Y` only of `added` segments (reconstructing `Y`). -/
theorem diffLines_spec (o n : String) :
    joinLines (oldLines (diffLines o n)) = o ∧
    joinLines (newLines (diffLines o n)) = n ∧
    (∀ seg ∈ diffLines o o, seg.kind = SegKind.unchanged) ∧
    (∀ seg ∈ diffLines "" n, seg.kind = SegKind.added) := by
  refine ⟨?_, ?_, ?_, ?_⟩
  · show joinLines (oldLines (diffSegs (splitLines o) (splitLines n))) = o
    unfold diffSegs
    rw [oldLines_diffSegsFuel _ _ _ le_rfl]
    exact joinLines_splitLines o
  · show joinLines (newLines (diffSegs (splitLines o) (splitLines n))) = n
    unfold diffSegs
    rw [newLines_diffSegsFuel _ _ _ le_rfl]
    exact joinLines_splitLines n
  · intro seg hseg
    have : diffLines o o =
        (splitLines o).map (fun l => ⟨SegKind.unchanged, l⟩) := by
      show diffSegs (splitLines o) (splitLines o) = _
      unfold diffSegs
      exact diffSegsFuel_self _ _ le_rfl
    rw [this] at hseg
    obtain ⟨l, _, rfl⟩ := List.mem_map.mp hseg
    rfl
  · intro seg hseg
    have : diffLines "" n =
        (splitLines n).map (fun l => ⟨SegKind.added, l⟩) := by
      show diffSegs (splitLines "") (splitLines n) = _
      unfold diffSegs
      exact diffSegsFuel_nil_left _ _ (by simp [splitLines])
    rw [this] at hseg
    obtain ⟨l, _, rfl⟩ := List.mem_map.mp hseg
    rfl

/-- Witness for `diffLines_spec`: concrete two-line texts, and concrete
segments of `diffLines "a" "a"` and `diffLines "" "q"` discharging the
membership hypotheses. -/
theorem diffLines_spec_witness :
    joinLines (oldLines (diffLines "a\nb" "a\nc")) = "a\nb" ∧
    (DiffSeg.mk SegKind.unchanged ['a']).kind = SegKind.unchanged ∧
    (DiffSeg.mk SegKind.added ['q']).kind = SegKind.added :=
  ⟨(diffLines_spec "a\nb" "a\nc").1,
   (diffLines_spec "a" "z").2.2.1 ⟨SegKind.unchanged, ['a']⟩ (by decide),
   (diffLines_spec "x" "q").2.2.2 ⟨SegKind.added, ['q']⟩ (by decide)⟩

end WorkflowViz
